import Mathlib

/-!
Verification of the GRH numerical inequality verifier
(`src/rh_verification.cpp`, namespace `grh`).

Real (`double`) arithmetic of the program is modelled exactly over `ℚ`
for all quantities the program derives by field operations from its
inputs, and over `ℝ` for the right-hand side, which involves `log`,
`exp` and `π`.  Array reads use C++ `std::vector::operator[]` with no
bounds check, so a read beyond the array's extent has no defined
behaviour; such a read is modelled as `Option.none` propagating to the
caller, i.e. the function has no defined result there.
-/

namespace grh

/-- The Euler–Mascheroni constant of `include/rh_verification.hpp`
(`EULER_CONSTANT`), as the exact value of its decimal literal. -/
def EULER_CONSTANT : ℚ := 0.57721566490153286060651209008240243

/-- `iota(eta)`: the minimum of two window expressions in `eta`. -/
def iota (eta : ℚ) : ℚ :=
  let term1 := 1 / (1 + eta * eta) + 2 / (4 + eta * eta)
  let term2 := 12 / (9 + 4 * eta * eta)
  if term1 < term2 then term1 else term2

/-- `C_Z(intervals)`: the sum over the interval list of the per-interval
contribution, with the symmetric/asymmetric branch applied to each
element exactly as in the C++ loop body. -/
def C_Z (intervals : List (ℚ × ℚ)) : ℚ :=
  intervals.foldl
    (fun sum iv =>
      let gamma_minus := iv.1
      let gamma_plus := iv.2
      if |gamma_minus + gamma_plus| < 1e-8 then
        let gamma0 := |gamma_plus|
        sum + 6 / (9 + 4 * gamma0 * gamma0)
      else
        sum + 12 / (9 + 4 * gamma_plus * gamma_plus))
    0

/-- `log_derivative(chi_arr, lambda_arr, K)`: the C++ loop
`for (int k = K; k <= K; ++k)` runs exactly once, at `k = K`.  The read
`chi_arr[K]` happens unconditionally, the read `lambda_arr[K]` only when
`chi_arr[K] ≠ 0`; an out-of-range read is `none` (no defined result). -/
def log_derivative (chi_arr : List ℤ) (lambda_arr : List ℚ) (K : ℕ) : Option ℚ :=
  match chi_arr.get? K with
  | none => none
  | some chi_k =>
    if chi_k = 0 then some 0
    else
      match lambda_arr.get? K with
      | none => none
      | some lambda_k =>
        some (0 - (chi_k : ℚ) * lambda_k / ((K : ℚ) * (K : ℚ)))

/-- `zero_contribution(gamma_minus, gamma_plus)`: symmetric intervals
(`|γ⁻+γ⁺| < 1e-8`) contribute `6/(9+4γ₀²)` with `γ₀ = |γ⁺|`, all other
intervals contribute `12/(9+4γ⁺²)`. -/
def zero_contribution (gamma_minus gamma_plus : ℚ) : ℚ :=
  if |gamma_minus + gamma_plus| < 1e-8 then
    let g := |gamma_plus|
    6 / (9 + 4 * g * g)
  else
    12 / (9 + 4 * gamma_plus * gamma_plus)

open Classical in
/-- The accumulation loop of `rh_verify`: starting from the running
left-hand side `lhs` and the counter `N_used`, consume intervals in
order, adding each one's contribution (the branch logic inlined in the
C++ loop body) and returning `true` as soon as `lhs > rhs` strictly. -/
noncomputable def rhVerifyLoop (rhs : ℝ) : ℚ → ℕ → List (ℚ × ℚ) → Bool × ℕ × ℚ
  | lhs, N_used, [] => (false, N_used, lhs)
  | lhs, N_used, iv :: rest =>
    let gamma_minus := iv.1
    let gamma_plus := iv.2
    let lhs' :=
      if |gamma_minus + gamma_plus| < 1e-8 then
        lhs + 6 / (9 + 4 * |gamma_plus| * |gamma_plus|)
      else
        lhs + 12 / (9 + 4 * gamma_plus * gamma_plus)
    if ((lhs' : ℚ) : ℝ) > rhs then (true, N_used + 1, lhs')
    else rhVerifyLoop rhs lhs' (N_used + 1) rest

/-- `rh_verify(d, K, eta, intervals, chi_arr, lambda_arr)`: compute the
right-hand side once (branching on the sign of `d`), initialise
`lhs = 2·iota(eta)`, `N_used = 0`, then run the accumulation loop.
Returns `(verified, N_used, lhs, rhs)`; `none` when the unconditional
`log_derivative` call reads out of range. -/
noncomputable def rh_verify (d : ℤ) (K : ℕ) (eta : ℚ)
    (intervals : List (ℚ × ℚ)) (chi_arr : List ℤ) (lambda_arr : List ℚ) :
    Option (Bool × ℕ × ℚ × ℝ) :=
  match log_derivative chi_arr lambda_arr K with
  | none => none
  | some ld =>
    let rhs : ℝ :=
      if d < 0 then
        1 / 2 * Real.log (|(d : ℝ)| * Real.exp 2 /
            (4 * Real.pi * Real.exp ((EULER_CONSTANT : ℚ) : ℝ))) + (ld : ℝ)
      else
        1 / 2 * Real.log ((d : ℝ) /
            (Real.pi * Real.exp ((EULER_CONSTANT : ℚ) : ℝ))) + (ld : ℝ)
    let res := rhVerifyLoop rhs (2 * iota eta) 0 intervals
    some (res.1, res.2.1, res.2.2, rhs)

/-- The contribution of one interval, as a function of the pair. -/
def contrib (iv : ℚ × ℚ) : ℚ := zero_contribution iv.1 iv.2

/-- The sum of per-interval contributions of a list of intervals. -/
def contribSum (xs : List (ℚ × ℚ)) : ℚ := (xs.map contrib).sum

/-- The right-hand side as `rh_verify` computes it, before the loop starts:
the sign of the discriminant selects the branch, `ld` is the value the
`log_derivative` call returned. -/
noncomputable def rhsFor (d : ℤ) (ld : ℚ) : ℝ :=
  if d < 0 then
    1 / 2 * Real.log (|(d : ℝ)| * Real.exp 2 /
        (4 * Real.pi * Real.exp ((EULER_CONSTANT : ℚ) : ℝ))) + (ld : ℝ)
  else
    1 / 2 * Real.log ((d : ℝ) /
        (Real.pi * Real.exp ((EULER_CONSTANT : ℚ) : ℝ))) + (ld : ℝ)

/-- Modelled from the spec: the logarithmic-derivative semantics claim C2
asserts for `log_derivative` — the true partial sum over `k = 1..K` of
`−χ_d(k)·Λ(k)/k²`, contributing `0` at each index with `χ_d(k) = 0`, with a
read beyond either array's extent a domain error (`none`).  This definition
follows the specification's words; the source's `log_derivative` above is
the code's actual single-term computation. -/
def log_derivative_sum (chi_arr : List ℤ) (lambda_arr : List ℚ) (K : ℕ) : Option ℚ :=
  (List.range K).foldl
    (fun acc i =>
      match acc with
      | none => none
      | some sum =>
        let k := i + 1
        match chi_arr.get? k with
        | none => none
        | some chi_k =>
          if chi_k = 0 then some sum
          else
            match lambda_arr.get? k with
            | none => none
            | some lambda_k =>
              some (sum - (chi_k : ℚ) * lambda_k / ((k : ℚ) * (k : ℚ))))
    (some 0)

theorem contribSum_nil : contribSum [] = 0 := rfl

theorem contribSum_cons (p : ℚ × ℚ) (xs : List (ℚ × ℚ)) :
    contribSum (p :: xs) = contrib p + contribSum xs := by
  simp [contribSum]

theorem rhVerifyLoop_nil (rhs : ℝ) (lhs : ℚ) (N : ℕ) :
    rhVerifyLoop rhs lhs N [] = (false, N, lhs) := rfl

theorem rhVerifyLoop_cons (rhs : ℝ) (lhs : ℚ) (N : ℕ) (iv : ℚ × ℚ)
    (rest : List (ℚ × ℚ)) :
    rhVerifyLoop rhs lhs N (iv :: rest) =
      if ((lhs + contrib iv : ℚ) : ℝ) > rhs then (true, N + 1, lhs + contrib iv)
      else rhVerifyLoop rhs (lhs + contrib iv) (N + 1) rest := by
  by_cases hp : |iv.1 + iv.2| < (1e-8 : ℚ) <;>
    simp [rhVerifyLoop, contrib, zero_contribution, hp]

/-- If `rh_verify` returned a value, `log_derivative` returned `some ld`,
the last component is the branch formula at `ld`, and the first three are
the loop's result at that right-hand side. -/
theorem rh_verify_some_elim (d : ℤ) (K : ℕ) (eta : ℚ)
    (intervals : List (ℚ × ℚ)) (chi_arr : List ℤ) (lambda_arr : List ℚ)
    (b : Bool) (N : ℕ) (l : ℚ) (r : ℝ)
    (h : rh_verify d K eta intervals chi_arr lambda_arr = some (b, N, l, r)) :
    ∃ ld, log_derivative chi_arr lambda_arr K = some ld ∧ r = rhsFor d ld ∧
      rhVerifyLoop (rhsFor d ld) (2 * iota eta) 0 intervals = (b, N, l) := by
  cases hld : log_derivative chi_arr lambda_arr K with
  | none => rw [rh_verify, hld] at h; cases h
  | some ld =>
    refine ⟨ld, rfl, ?_⟩
    rw [rh_verify, hld] at h
    simp only [Option.some.injEq, Prod.mk.injEq] at h
    obtain ⟨hb, hN, hl, hr⟩ := h
    refine ⟨hr.symm.trans (by rw [rhsFor]), ?_⟩
    rw [show rhsFor d ld = (if d < 0 then
        1 / 2 * Real.log (|(d : ℝ)| * Real.exp 2 /
            (4 * Real.pi * Real.exp ((EULER_CONSTANT : ℚ) : ℝ))) + (ld : ℝ)
      else
        1 / 2 * Real.log ((d : ℝ) /
            (Real.pi * Real.exp ((EULER_CONSTANT : ℚ) : ℝ))) + (ld : ℝ)) from rfl]
    exact Prod.ext hb (Prod.ext hN hl)

/-- Conversely: when `log_derivative` returns `some ld`, `rh_verify` packages
the loop result with the branch right-hand side. -/
theorem rh_verify_eq_of_log_derivative (d : ℤ) (K : ℕ) (eta : ℚ)
    (intervals : List (ℚ × ℚ)) (chi_arr : List ℤ) (lambda_arr : List ℚ)
    (ld : ℚ) (h : log_derivative chi_arr lambda_arr K = some ld) :
    rh_verify d K eta intervals chi_arr lambda_arr =
      some ((rhVerifyLoop (rhsFor d ld) (2 * iota eta) 0 intervals).1,
            (rhVerifyLoop (rhsFor d ld) (2 * iota eta) 0 intervals).2.1,
            (rhVerifyLoop (rhsFor d ld) (2 * iota eta) 0 intervals).2.2,
            rhsFor d ld) := by
  rw [rh_verify, h]
  rfl

/-- When no nonempty prefix pushes the running sum strictly past `rhs`,
the loop exhausts the list: `false`, the counter advanced by the whole
length, and the accumulator holding the full sum. -/
theorem rhVerifyLoop_of_no_exceed (rhs : ℝ) (xs : List (ℚ × ℚ)) :
    ∀ (lhs : ℚ) (N : ℕ),
      (∀ i, 1 ≤ i → i ≤ xs.length →
        ¬ ((((lhs + contribSum (xs.take i) : ℚ)) : ℝ) > rhs)) →
      rhVerifyLoop rhs lhs N xs = (false, N + xs.length, lhs + contribSum xs) := by
  induction xs with
  | nil => intro lhs N _; simp [rhVerifyLoop_nil, contribSum_nil]
  | cons p rest ih =>
    intro lhs N h
    have h1 : ¬ ((((lhs + contrib p : ℚ)) : ℝ) > rhs) := by
      have := h 1 le_rfl (by simp)
      simpa [contribSum_cons, contribSum_nil] using this
    rw [rhVerifyLoop_cons, if_neg h1]
    have h2 : ∀ i, 1 ≤ i → i ≤ rest.length →
        ¬ ((((lhs + contrib p + contribSum (rest.take i) : ℚ)) : ℝ) > rhs) := by
      intro i hi1 hi2
      have := h (i + 1) (by omega) (by simp; omega)
      simpa [List.take_succ_cons, contribSum_cons, add_assoc] using this
    rw [ih (lhs + contrib p) (N + 1) h2]
    simp only [Prod.mk.injEq, List.length_cons]
    exact ⟨trivial, by omega, by rw [contribSum_cons]; ring⟩

/-- When `m` is the first length (at least 1) at which the running sum
strictly exceeds `rhs`, the loop stops there: `true`, the counter advanced
by `m`, the accumulator holding the sum of the first `m` contributions. -/
theorem rhVerifyLoop_of_first_exceed (rhs : ℝ) (xs : List (ℚ × ℚ)) :
    ∀ (lhs : ℚ) (N m : ℕ), 1 ≤ m → m ≤ xs.length →
      ((((lhs + contribSum (xs.take m) : ℚ)) : ℝ) > rhs) →
      (∀ j, 1 ≤ j → j < m →
        ¬ ((((lhs + contribSum (xs.take j) : ℚ)) : ℝ) > rhs)) →
      rhVerifyLoop rhs lhs N xs = (true, N + m, lhs + contribSum (xs.take m)) := by
  induction xs with
  | nil => intro lhs N m hm1 hm2 _ _; simp at hm2; omega
  | cons p rest ih =>
    intro lhs N m hm1 hm2 hexc hmin
    rw [rhVerifyLoop_cons]
    rcases Nat.lt_or_ge m 2 with hm | hm
    · have hm1' : m = 1 := by omega
      subst hm1'
      have hx : ((((lhs + contrib p : ℚ)) : ℝ) > rhs) := by
        simpa [List.take_succ_cons, contribSum_cons, contribSum_nil] using hexc
      rw [if_pos hx]
      simp [List.take_succ_cons, contribSum_cons, contribSum_nil]
    · have h1 : ¬ ((((lhs + contrib p : ℚ)) : ℝ) > rhs) := by
        have := hmin 1 le_rfl (by omega)
        simpa [List.take_succ_cons, contribSum_cons, contribSum_nil] using this
      rw [if_neg h1]
      obtain ⟨m', rfl⟩ : ∃ m', m = m' + 1 := ⟨m - 1, by omega⟩
      have hexc' : ((((lhs + contrib p + contribSum (rest.take m') : ℚ)) : ℝ) > rhs) := by
        simpa [List.take_succ_cons, contribSum_cons, add_assoc] using hexc
      have hmin' : ∀ j, 1 ≤ j → j < m' →
          ¬ ((((lhs + contrib p + contribSum (rest.take j) : ℚ)) : ℝ) > rhs) := by
        intro j hj1 hj2
        have := hmin (j + 1) (by omega) (by omega)
        simpa [List.take_succ_cons, contribSum_cons, add_assoc] using this
      rw [ih (lhs + contrib p) (N + 1) m' (by omega)
        (by simp only [List.length_cons] at hm2; omega) hexc' hmin']
      simp only [Prod.mk.injEq, List.take_succ_cons, contribSum_cons]
      exact ⟨trivial, by omega, by ring⟩

open Classical in
/-- Complete case analysis of the loop: either some nonempty prefix exceeds
`rhs` and the loop stops at the least such prefix, or none does and the loop
exhausts the list. -/
theorem rhVerifyLoop_cases (rhs : ℝ) (lhs : ℚ) (N : ℕ) (xs : List (ℚ × ℚ)) :
    (∃ m, 1 ≤ m ∧ m ≤ xs.length ∧
        ((((lhs + contribSum (xs.take m) : ℚ)) : ℝ) > rhs) ∧
        (∀ j, 1 ≤ j → j < m →
          ¬ ((((lhs + contribSum (xs.take j) : ℚ)) : ℝ) > rhs)) ∧
        rhVerifyLoop rhs lhs N xs = (true, N + m, lhs + contribSum (xs.take m)))
    ∨ ((∀ i, 1 ≤ i → i ≤ xs.length →
          ¬ ((((lhs + contribSum (xs.take i) : ℚ)) : ℝ) > rhs)) ∧
        rhVerifyLoop rhs lhs N xs = (false, N + xs.length, lhs + contribSum xs)) := by
  by_cases hex : ∃ i, (1 ≤ i ∧ i ≤ xs.length) ∧
      ((((lhs + contribSum (xs.take i) : ℚ)) : ℝ) > rhs)
  · left
    obtain ⟨⟨hm1, hm2⟩, hm3⟩ := Nat.find_spec hex
    refine ⟨Nat.find hex, hm1, hm2, hm3, ?_, ?_⟩
    · intro j hj1 hj2 hj3
      exact Nat.find_min hex hj2 ⟨⟨hj1, by omega⟩, hj3⟩
    · exact rhVerifyLoop_of_first_exceed rhs xs lhs N (Nat.find hex) hm1 hm2 hm3
        fun j hj1 hj2 hj3 => Nat.find_min hex hj2 ⟨⟨hj1, by omega⟩, hj3⟩
  · right
    push_neg at hex
    have h : ∀ i, 1 ≤ i → i ≤ xs.length →
        ¬ ((((lhs + contribSum (xs.take i) : ℚ)) : ℝ) > rhs) :=
      fun i hi1 hi2 => not_lt.mpr (hex i ⟨hi1, hi2⟩)
    exact ⟨h, rhVerifyLoop_of_no_exceed rhs xs lhs N h⟩

/-- A loop run that returned `true` is unchanged by appending further
intervals after the list it stopped in. -/
theorem rhVerifyLoop_append_of_true (rhs : ℝ) (xs : List (ℚ × ℚ)) :
    ∀ (ys : List (ℚ × ℚ)) (lhs : ℚ) (N N' : ℕ) (l' : ℚ),
      rhVerifyLoop rhs lhs N xs = (true, N', l') →
      rhVerifyLoop rhs lhs N (xs ++ ys) = (true, N', l') := by
  induction xs with
  | nil =>
    intro ys lhs N N' l' h
    rw [rhVerifyLoop_nil] at h
    simp at h
  | cons p rest ih =>
    intro ys lhs N N' l' h
    rw [rhVerifyLoop_cons] at h
    rw [List.cons_append, rhVerifyLoop_cons]
    by_cases hc : ((((lhs + contrib p : ℚ)) : ℝ) > rhs)
    · rw [if_pos hc] at h ⊢; exact h
    · rw [if_neg hc] at h ⊢; exact ih ys (lhs + contrib p) (N + 1) N' l' h

/-- The fold of `C_Z`, started from any accumulator, adds the total of the
per-interval contributions. -/
theorem C_Z_foldl (xs : List (ℚ × ℚ)) : ∀ acc : ℚ,
    List.foldl
      (fun sum iv =>
        let gamma_minus := iv.1
        let gamma_plus := iv.2
        if |gamma_minus + gamma_plus| < 1e-8 then
          let gamma0 := |gamma_plus|
          sum + 6 / (9 + 4 * gamma0 * gamma0)
        else
          sum + 12 / (9 + 4 * gamma_plus * gamma_plus))
      acc xs = acc + contribSum xs := by
  induction xs with
  | nil => intro acc; simp [contribSum_nil]
  | cons p rest ih =>
    intro acc
    rw [List.foldl_cons, ih]
    by_cases hp : |p.1 + p.2| < (1e-8 : ℚ) <;>
      simp only [contribSum_cons, contrib, zero_contribution, hp, if_pos, if_neg,
        not_false_iff] <;>
      ring

/-- `C_Z` is the sum of `zero_contribution` over the list's elements. -/
theorem C_Z_eq_contribSum (xs : List (ℚ × ℚ)) : C_Z xs = contribSum xs := by
  rw [C_Z, C_Z_foldl, zero_add]

theorem log_derivative_single0 : log_derivative [0] [0] 0 = some 0 := rfl

theorem iota_zero : iota 0 = 4 / 3 := by norm_num [iota]

theorem contrib_neg2_two : contrib (-2, 2) = 6 / 25 := by
  norm_num [contrib, zero_contribution]

theorem two_iota_add_contrib : (2 * iota 0 + contrib (-2, 2) : ℚ) = 218 / 75 := by
  rw [iota_zero, contrib_neg2_two]; norm_num

theorem exp_euler_gt_one : (1 : ℝ) < Real.exp ((EULER_CONSTANT : ℚ) : ℝ) := by
  rw [Real.one_lt_exp_iff]
  rw [EULER_CONSTANT]
  norm_num

theorem exp_euler_lt_three : Real.exp ((EULER_CONSTANT : ℚ) : ℝ) < 3 := by
  have h1 : ((EULER_CONSTANT : ℚ) : ℝ) ≤ 1 := by rw [EULER_CONSTANT]; norm_num
  calc Real.exp ((EULER_CONSTANT : ℚ) : ℝ) ≤ Real.exp 1 := Real.exp_le_exp.mpr h1
    _ < 2.7182818286 := Real.exp_one_lt_d9
    _ < 3 := by norm_num

/-- The right-hand side at `d = -4`, `ld = 0` is below `218/75`: the
argument of the logarithm is under `e²`, so the logarithm is under `2`. -/
theorem rhsFor_neg4_lt : rhsFor (-4) 0 < ((218 / 75 : ℚ) : ℝ) := by
  rw [rhsFor, if_pos (by norm_num : (-4 : ℤ) < 0)]
  have habs : |((-4 : ℤ) : ℝ)| = 4 := by norm_num
  rw [habs]
  have hpi : (1 : ℝ) < Real.pi := by linarith [Real.pi_gt_three]
  have hme : (0 : ℝ) < 4 * Real.pi * Real.exp ((EULER_CONSTANT : ℚ) : ℝ) := by
    have := Real.exp_pos ((EULER_CONSTANT : ℚ) : ℝ)
    nlinarith
  have hx : (0 : ℝ) < 4 * Real.exp 2 /
      (4 * Real.pi * Real.exp ((EULER_CONSTANT : ℚ) : ℝ)) := by
    have := Real.exp_pos (2 : ℝ)
    positivity
  have hlog : Real.log (4 * Real.exp 2 /
      (4 * Real.pi * Real.exp ((EULER_CONSTANT : ℚ) : ℝ))) < 2 := by
    rw [Real.log_lt_iff_lt_exp hx, div_lt_iff hme]
    have h2 := Real.exp_pos (2 : ℝ)
    have hg := exp_euler_gt_one
    have hpg : (1 : ℝ) < Real.pi * Real.exp ((EULER_CONSTANT : ℚ) : ℝ) := by nlinarith
    nlinarith [mul_lt_mul_of_pos_left hpg h2]
  have hcast : ((218 / 75 : ℚ) : ℝ) = 218 / 75 := by norm_num
  rw [hcast]
  have : ((0 : ℚ) : ℝ) = 0 := by norm_num
  rw [this]
  linarith

/-- The right-hand side at `d = 1000000`, `ld = 0` is at least `218/75`:
the argument of the logarithm exceeds `e^6`, so the logarithm is at
least `6 > 2·218/75`. -/
theorem rhsFor_million_ge : ((218 / 75 : ℚ) : ℝ) ≤ rhsFor 1000000 0 := by
  rw [rhsFor, if_neg (by norm_num : ¬((1000000 : ℤ) < 0))]
  have hcast : ((1000000 : ℤ) : ℝ) = 1000000 := by norm_num
  rw [hcast]
  have hpe : (0 : ℝ) < Real.pi * Real.exp ((EULER_CONSTANT : ℚ) : ℝ) := by
    have := Real.exp_pos ((EULER_CONSTANT : ℚ) : ℝ)
    have := Real.pi_pos
    positivity
  have hpe12 : Real.pi * Real.exp ((EULER_CONSTANT : ℚ) : ℝ) < 12 := by
    have h1 := Real.pi_lt_four
    have h2 := exp_euler_lt_three
    have h3 := Real.pi_pos
    have h4 := Real.exp_pos ((EULER_CONSTANT : ℚ) : ℝ)
    nlinarith
  have hx : (0 : ℝ) < 1000000 / (Real.pi * Real.exp ((EULER_CONSTANT : ℚ) : ℝ)) := by
    positivity
  have hexp6 : Real.exp (436 / 75) < 406 := by
    have h6 : Real.exp ((436 : ℝ) / 75) ≤ Real.exp 6 :=
      Real.exp_le_exp.mpr (by norm_num)
    have hmul : Real.exp (6 : ℝ) = Real.exp 1 ^ (6 : ℕ) := by
      rw [← Real.exp_nat_mul]; norm_num
    have hpow : Real.exp 1 ^ (6 : ℕ) < 2.7182818286 ^ (6 : ℕ) :=
      pow_lt_pow_left Real.exp_one_lt_d9 (le_of_lt (Real.exp_pos 1)) (by norm_num)
    have hnum : (2.7182818286 : ℝ) ^ (6 : ℕ) < 406 := by norm_num
    calc Real.exp ((436 : ℝ) / 75) ≤ Real.exp 6 := h6
      _ = Real.exp 1 ^ (6 : ℕ) := hmul
      _ < 2.7182818286 ^ (6 : ℕ) := hpow
      _ < 406 := hnum
  have hlog : (436 / 75 : ℝ) ≤ Real.log (1000000 /
      (Real.pi * Real.exp ((EULER_CONSTANT : ℚ) : ℝ))) := by
    rw [Real.le_log_iff_exp_le hx, le_div_iff hpe]
    have := Real.exp_pos ((436 : ℝ) / 75)
    nlinarith
  have hcast2 : ((218 / 75 : ℚ) : ℝ) = 218 / 75 := by norm_num
  have hcast0 : ((0 : ℚ) : ℝ) = 0 := by norm_num
  rw [hcast2, hcast0]
  linarith

/-- Concrete run used by the witnesses: `d = -4` verifies after one interval. -/
theorem rh_verify_neg4_eval :
    rh_verify (-4) 0 0 [(-2, 2)] [0] [0] = some (true, 1, 218 / 75, rhsFor (-4) 0) := by
  rw [rh_verify_eq_of_log_derivative (-4) 0 0 [(-2, 2)] [0] [0] 0 log_derivative_single0]
  rw [rhVerifyLoop_cons, two_iota_add_contrib, if_pos rhsFor_neg4_lt]

/-- Concrete run used by the witnesses: `d = 1000000` exhausts the single
interval without verifying. -/
theorem rh_verify_million_eval :
    rh_verify 1000000 0 0 [(-2, 2)] [0] [0] =
      some (false, 1, 218 / 75, rhsFor 1000000 0) := by
  rw [rh_verify_eq_of_log_derivative 1000000 0 0 [(-2, 2)] [0] [0] 0 log_derivative_single0]
  rw [rhVerifyLoop_cons, two_iota_add_contrib, if_neg (not_lt.mpr rhsFor_million_ge),
    rhVerifyLoop_nil]

/-- C7: `zero_contribution(γ⁻, γ⁺)` returns `6/(9+4·γ0²)` with `γ0 = |γ⁺|`
when `|γ⁻+γ⁺| < 1e-8`, and `12/(9+4·γ⁺²)` otherwise; in particular
`zero_contribution(0, 5) = 12/109` and `zero_contribution(-3, 3) = 6/45`. -/
theorem zero_contribution_values :
    (∀ gamma_minus gamma_plus : ℚ,
        zero_contribution gamma_minus gamma_plus =
          if |gamma_minus + gamma_plus| < 1e-8 then
            6 / (9 + 4 * |gamma_plus| * |gamma_plus|)
          else 12 / (9 + 4 * gamma_plus * gamma_plus)) ∧
    zero_contribution 0 5 = 12 / 109 ∧
    zero_contribution (-3) 3 = 6 / 45 := by
  refine ⟨fun gm gp => rfl, ?_, ?_⟩ <;> norm_num [zero_contribution]

/-- C8: on `d = -4`, `K = 0`, `eta = 0`, one symmetric interval `(-2, 2)`,
arrays contributing nothing to the logarithmic derivative, `rh_verify`
verifies with `N_used = 1`, `lhs = 2·(4/3) + 6/25` and
`rhs = 0.5·ln(4·e²/(4π·e^γ))`. -/
theorem rh_verify_end_to_end_neg4 :
    rh_verify (-4) 0 0 [(-2, 2)] [0] [0] =
      some (true, 1, 2 * (4 / 3) + 6 / 25,
        1 / 2 * Real.log (4 * Real.exp 2 /
          (4 * Real.pi * Real.exp ((EULER_CONSTANT : ℚ) : ℝ)))) := by
  rw [rh_verify_neg4_eval]
  have h1 : (2 * (4 / 3) + 6 / 25 : ℚ) = 218 / 75 := by norm_num
  have h2 : rhsFor (-4) 0 =
      1 / 2 * Real.log (4 * Real.exp 2 /
        (4 * Real.pi * Real.exp ((EULER_CONSTANT : ℚ) : ℝ))) := by
    rw [rhsFor, if_pos (by norm_num : (-4 : ℤ) < 0)]
    norm_num
  rw [h1, h2]

/-- C2 (code bug): on `chi_arr = [0,1,1]`, `lambda_arr = [0,1,1]`, `K = 2`,
the code's `log_derivative` returns only the single `k = K` term, `−1/4`
(its loop `for (k = K; k <= K; ++k)` runs once), not the partial sum over
`k = 1..K` asserted by the claim, which is `−1 − 1/4 = −5/4`. -/
theorem log_derivative_single_term_bug :
    log_derivative [0, 1, 1] [0, 1, 1] 2 = some (-(1 / 4)) ∧
    log_derivative_sum [0, 1, 1] [0, 1, 1] 2 = some (-(5 / 4)) ∧
    log_derivative [0, 1, 1] [0, 1, 1] 2 ≠ log_derivative_sum [0, 1, 1] [0, 1, 1] 2 := by
  refine ⟨?_, ?_, ?_⟩ <;>
    norm_num [log_derivative, log_derivative_sum, List.range_succ]

/-- C4 (code bug): with empty arrays and `K = 1` the unconditional read
`chi_arr[1]` is beyond the arrays' extent.  The C++ code performs an
unchecked `std::vector::operator[]` access there — silent undefined
behaviour, not an explicit caller-visible domain error; the model records
the absence of any defined result as `none`, which `rh_verify`
propagates. -/
theorem log_derivative_out_of_range_eval :
    log_derivative [] [] 1 = none ∧ rh_verify (-4) 1 0 [] [] [] = none :=
  ⟨rfl, rfl⟩

/-- C10: with both arrays covering index `K`, `log_derivative` depends only
on `chi_arr[K]` and `lambda_arr[K]`: it is `0` when `chi_arr[K] = 0` and
`−chi_arr[K]·lambda_arr[K]/K²` otherwise, whatever the other entries. -/
theorem log_derivative_depends_only_on_index_K (chi_arr : List ℤ)
    (lambda_arr : List ℚ) (K : ℕ) (c : ℤ) (v : ℚ)
    (h1 : chi_arr.get? K = some c) (h2 : lambda_arr.get? K = some v) :
    log_derivative chi_arr lambda_arr K =
      some (if c = 0 then 0 else 0 - (c : ℚ) * v / ((K : ℚ) * (K : ℚ))) ∧
    ∀ (chi' : List ℤ) (lambda' : List ℚ),
      chi'.get? K = some c → lambda'.get? K = some v →
      log_derivative chi' lambda' K = log_derivative chi_arr lambda_arr K := by
  have key : ∀ (ca : List ℤ) (la : List ℚ), ca.get? K = some c → la.get? K = some v →
      log_derivative ca la K =
        some (if c = 0 then 0 else 0 - (c : ℚ) * v / ((K : ℚ) * (K : ℚ))) := by
    intro ca la g1 g2
    unfold log_derivative
    rw [g1, g2]
    by_cases hc : c = 0 <;> simp [hc]
  exact ⟨key _ _ h1 h2,
    fun chi' lambda' g1 g2 => (key _ _ g1 g2).trans (key _ _ h1 h2).symm⟩

/-- Closed instance of C10 at a concrete input: `chi = [5, 1]`,
`lambda = [0, 7]`, `K = 1` gives the single nonzero term `−7`. -/
theorem log_derivative_depends_only_on_index_K_witness :
    log_derivative [5, 1] [0, 7] 1 =
      some (if (1 : ℤ) = 0 then 0 else 0 - ((1 : ℤ) : ℚ) * 7 / ((1 : ℕ) * (1 : ℕ))) :=
  (log_derivative_depends_only_on_index_K [5, 1] [0, 7] 1 1 7 rfl rfl).1

/-- C1: `rh_verify` returns `verified = true` iff some prefix of the interval
sequence (a nonempty one — those are the prefixes the accumulation loop
tests, one per consumed interval) makes `2·iota(eta)` plus that prefix's
contributions strictly exceed the computed right-hand side; when verified,
`N_used` is the length of the minimal such prefix, otherwise `N_used` is
the full interval count; a final `lhs` equal to `rhs` never verifies. -/
theorem rh_verify_minimal_prefix_semantics (d : ℤ) (K : ℕ) (eta : ℚ)
    (intervals : List (ℚ × ℚ)) (chi_arr : List ℤ) (lambda_arr : List ℚ)
    (b : Bool) (N : ℕ) (l : ℚ) (r : ℝ)
    (h : rh_verify d K eta intervals chi_arr lambda_arr = some (b, N, l, r)) :
    (b = true ↔ ∃ i, 1 ≤ i ∧ i ≤ intervals.length ∧
        ((((2 * iota eta + contribSum (intervals.take i) : ℚ)) : ℝ) > r)) ∧
    (b = true → 1 ≤ N ∧ N ≤ intervals.length ∧
        ((((2 * iota eta + contribSum (intervals.take N) : ℚ)) : ℝ) > r) ∧
        ∀ j, 1 ≤ j → j < N →
          ¬ ((((2 * iota eta + contribSum (intervals.take j) : ℚ)) : ℝ) > r)) ∧
    (b = false → N = intervals.length) ∧
    ((l : ℝ) = r → b = false) := by
  obtain ⟨ld, hld, hr, hloop⟩ :=
    rh_verify_some_elim d K eta intervals chi_arr lambda_arr b N l r h
  subst hr
  rcases rhVerifyLoop_cases (rhsFor d ld) (2 * iota eta) 0 intervals with
    ⟨m, hm1, hm2, hm3, hm4, heq⟩ | ⟨hall, heq⟩
  · rw [heq] at hloop
    simp only [Prod.mk.injEq] at hloop
    obtain ⟨hb, hN, hl⟩ := hloop
    have hNm : N = m := by omega
    subst hNm
    refine ⟨⟨fun _ => ⟨N, hm1, hm2, hm3⟩, fun _ => hb.symm⟩,
      fun _ => ⟨hm1, hm2, hm3, hm4⟩, fun hf => ?_, fun hlr => ?_⟩
    · rw [← hb] at hf; cases hf
    · exfalso
      rw [hl] at hm3
      rw [hlr] at hm3
      exact lt_irrefl _ hm3
  · rw [heq] at hloop
    simp only [Prod.mk.injEq] at hloop
    obtain ⟨hb, hN, hl⟩ := hloop
    refine ⟨⟨fun ht => ?_, fun hex => ?_⟩, fun ht => ?_, fun _ => by omega,
      fun _ => hb.symm⟩
    · rw [← hb] at ht; cases ht
    · obtain ⟨i, hi1, hi2, hi3⟩ := hex
      exact absurd hi3 (hall i hi1 hi2)
    · rw [← hb] at ht; cases ht

/-- Closed instance of C1 at `d = -4`: the verifying run exhibits a nonempty
exceeding prefix. -/
theorem rh_verify_minimal_prefix_semantics_witness :
    ∃ i, 1 ≤ i ∧ i ≤ ([((-2 : ℚ), (2 : ℚ))] : List (ℚ × ℚ)).length ∧
      ((((2 * iota 0 + contribSum (([((-2 : ℚ), (2 : ℚ))] : List (ℚ × ℚ)).take i) : ℚ)) : ℝ) >
        rhsFor (-4) 0) :=
  (rh_verify_minimal_prefix_semantics (-4) 0 0 [(-2, 2)] [0] [0] true 1 (218 / 75)
    (rhsFor (-4) 0) rh_verify_neg4_eval).1.mp rfl

/-- C3: the right-hand side `rh_verify` reports is the sign-selected branch
formula at the Euler–Mascheroni literal, with the `log_derivative` value
added in both branches, and it does not depend on the interval sequence —
it is fixed before any interval is consumed. -/
theorem rh_verify_rhs_formula (d : ℤ) (K : ℕ) (eta : ℚ)
    (intervals : List (ℚ × ℚ)) (chi_arr : List ℤ) (lambda_arr : List ℚ)
    (b : Bool) (N : ℕ) (l : ℚ) (r : ℝ)
    (h : rh_verify d K eta intervals chi_arr lambda_arr = some (b, N, l, r)) :
    ∃ ld : ℚ, log_derivative chi_arr lambda_arr K = some ld ∧
      (d < 0 → r = 1 / 2 * Real.log (|(d : ℝ)| * Real.exp 2 /
          (4 * Real.pi * Real.exp ((EULER_CONSTANT : ℚ) : ℝ))) + (ld : ℝ)) ∧
      (0 ≤ d → r = 1 / 2 * Real.log ((d : ℝ) /
          (Real.pi * Real.exp ((EULER_CONSTANT : ℚ) : ℝ))) + (ld : ℝ)) ∧
      EULER_CONSTANT = 0.57721566490153286060651209008240243 ∧
      ∀ intervals' : List (ℚ × ℚ), ∃ b' N' l',
        rh_verify d K eta intervals' chi_arr lambda_arr = some (b', N', l', r) := by
  obtain ⟨ld, hld, hr, _⟩ :=
    rh_verify_some_elim d K eta intervals chi_arr lambda_arr b N l r h
  refine ⟨ld, hld, ?_, ?_, rfl, ?_⟩
  · intro hdneg
    rw [hr, rhsFor, if_pos hdneg]
  · intro hdpos
    rw [hr, rhsFor, if_neg (not_lt.mpr hdpos)]
  · intro intervals'
    have hthis := rh_verify_eq_of_log_derivative d K eta intervals' chi_arr lambda_arr ld hld
    rw [← hr] at hthis
    exact ⟨_, _, _, hthis⟩

/-- Closed instance of C3 at `d = -4`. -/
theorem rh_verify_rhs_formula_witness :
    ∃ ld : ℚ, log_derivative [0] [0] 0 = some ld ∧
      ((-4 : ℤ) < 0 → rhsFor (-4) 0 = 1 / 2 * Real.log (|((-4 : ℤ) : ℝ)| * Real.exp 2 /
          (4 * Real.pi * Real.exp ((EULER_CONSTANT : ℚ) : ℝ))) + (ld : ℝ)) ∧
      (0 ≤ (-4 : ℤ) → rhsFor (-4) 0 = 1 / 2 * Real.log (((-4 : ℤ) : ℝ) /
          (Real.pi * Real.exp ((EULER_CONSTANT : ℚ) : ℝ))) + (ld : ℝ)) ∧
      EULER_CONSTANT = 0.57721566490153286060651209008240243 ∧
      ∀ intervals' : List (ℚ × ℚ), ∃ b' N' l',
        rh_verify (-4) 0 0 intervals' [0] [0] = some (b', N', l', rhsFor (-4) 0) :=
  rh_verify_rhs_formula (-4) 0 0 [(-2, 2)] [0] [0] true 1 (218 / 75) (rhsFor (-4) 0)
    rh_verify_neg4_eval

/-- C5: when `rh_verify` exhausts the sequence (`verified = false`), its
final `lhs` is `2·iota(eta) + C_Z(intervals)`, and the standalone total
`C_Z` equals the sum of `zero_contribution` over the sequence. -/
theorem rh_verify_exhausted_total (d : ℤ) (K : ℕ) (eta : ℚ)
    (intervals : List (ℚ × ℚ)) (chi_arr : List ℤ) (lambda_arr : List ℚ)
    (N : ℕ) (l : ℚ) (r : ℝ)
    (h : rh_verify d K eta intervals chi_arr lambda_arr = some (false, N, l, r)) :
    l = 2 * iota eta + C_Z intervals ∧
    C_Z intervals = contribSum intervals := by
  obtain ⟨ld, hld, hr, hloop⟩ :=
    rh_verify_some_elim d K eta intervals chi_arr lambda_arr false N l r h
  refine ⟨?_, C_Z_eq_contribSum intervals⟩
  rcases rhVerifyLoop_cases (rhsFor d ld) (2 * iota eta) 0 intervals with
    ⟨m, _, _, _, _, heq⟩ | ⟨_, heq⟩
  · rw [heq] at hloop
    simp at hloop
  · rw [heq] at hloop
    simp only [Prod.mk.injEq] at hloop
    rw [C_Z_eq_contribSum]
    exact hloop.2.2.symm

/-- Closed instance of C5 at `d = 1000000` (sequence exhausted). -/
theorem rh_verify_exhausted_total_witness :
    (218 / 75 : ℚ) = 2 * iota 0 + C_Z [(-2, 2)] ∧
    C_Z [(-2, 2)] = contribSum [(-2, 2)] :=
  rh_verify_exhausted_total 1000000 0 0 [(-2, 2)] [0] [0] 1 (218 / 75)
    (rhsFor 1000000 0) rh_verify_million_eval

/-- C6: a verifying run is unchanged by appending further intervals: the
result stays `verified = true` with the same `N_used` (and the same `lhs`
and `rhs`). -/
theorem rh_verify_append_monotone (d : ℤ) (K : ℕ) (eta : ℚ)
    (intervals extra : List (ℚ × ℚ)) (chi_arr : List ℤ) (lambda_arr : List ℚ)
    (N : ℕ) (l : ℚ) (r : ℝ)
    (h : rh_verify d K eta intervals chi_arr lambda_arr = some (true, N, l, r)) :
    rh_verify d K eta (intervals ++ extra) chi_arr lambda_arr =
      some (true, N, l, r) := by
  obtain ⟨ld, hld, hr, hloop⟩ :=
    rh_verify_some_elim d K eta intervals chi_arr lambda_arr true N l r h
  have happ := rhVerifyLoop_append_of_true (rhsFor d ld) intervals extra
    (2 * iota eta) 0 N l hloop
  rw [rh_verify_eq_of_log_derivative d K eta (intervals ++ extra) chi_arr lambda_arr
    ld hld, happ, hr]

/-- Closed instance of C6: appending `(0, 1)` after the verifying run keeps
`verified = true`, `N_used = 1` and the same outputs. -/
theorem rh_verify_append_monotone_witness :
    rh_verify (-4) 0 0 [(-2, 2), (0, 1)] [0] [0] =
      some (true, 1, 218 / 75, rhsFor (-4) 0) := by
  have h := rh_verify_append_monotone (-4) 0 0 [(-2, 2)] [(0, 1)] [0] [0] 1 (218 / 75)
    (rhsFor (-4) 0) rh_verify_neg4_eval
  simpa using h

/-- C9: on an empty interval sequence `rh_verify` always returns
`verified = false`, `N_used = 0`, `lhs = 2·iota(eta)` — the empty prefix is
never tested, whatever the right-hand side — and every verifying run has
`N_used ≥ 1`. -/
theorem rh_verify_empty_unverified (d : ℤ) (K : ℕ) (eta : ℚ)
    (chi_arr : List ℤ) (lambda_arr : List ℚ) (ld : ℚ)
    (hld : log_derivative chi_arr lambda_arr K = some ld) :
    rh_verify d K eta [] chi_arr lambda_arr =
      some (false, 0, 2 * iota eta, rhsFor d ld) ∧
    ∀ (intervals : List (ℚ × ℚ)) (N : ℕ) (l : ℚ) (r : ℝ),
      rh_verify d K eta intervals chi_arr lambda_arr = some (true, N, l, r) →
      1 ≤ N := by
  constructor
  · rw [rh_verify_eq_of_log_derivative d K eta [] chi_arr lambda_arr ld hld,
      rhVerifyLoop_nil]
  · intro intervals N l r h
    obtain ⟨ld', hld', hr, hloop⟩ :=
      rh_verify_some_elim d K eta intervals chi_arr lambda_arr true N l r h
    rcases rhVerifyLoop_cases (rhsFor d ld') (2 * iota eta) 0 intervals with
      ⟨m, hm1, _, _, _, heq⟩ | ⟨_, heq⟩
    · rw [heq] at hloop
      simp only [Prod.mk.injEq] at hloop
      obtain ⟨_, hN, _⟩ := hloop
      omega
    · rw [heq] at hloop
      simp at hloop

/-- Closed instance of C9: at `d = -4` the initial `lhs = 8/3` already
exceeds the right-hand side, yet the empty sequence is not verified. -/
theorem rh_verify_empty_unverified_witness :
    rh_verify (-4) 0 0 [] [0] [0] = some (false, 0, 2 * iota 0, rhsFor (-4) 0) :=
  (rh_verify_empty_unverified (-4) 0 0 [0] [0] 0 log_derivative_single0).1

end grh
